import Mathlib

/-!
Shallow embedding of the `embedding_app` ingestion-to-index pipeline
(`embedding_client.py`, `vector_store.py`, `utils.py`, `cli.py`) and proofs
about it.  Python dictionaries are modelled as insertion-ordered association
lists, the filesystem under the output base directory as the list of paths
that exist, and the remote embedding service as an oracle indexed by the
ordinal of the HTTP call.
-/

namespace EmbeddingApp

/-- JSON-like metadata values (enough structure for the persisted
`metadata.json` entries: strings for `text`/`session_id`, naturals for `id`). -/
inductive MVal where
  | str : String → MVal
  | nat : Nat → MVal
  deriving DecidableEq

/-- A Python `dict` with string keys, as an insertion-ordered association list. -/
abbrev Dict := List (String × MVal)

/-- Python `d[k]` lookup (first matching key). -/
def dictGet : Dict → String → Option MVal
  | [], _ => none
  | p :: rest, k => if p.1 = k then some p.2 else dictGet rest k

/-- Python `d[k] = v`: update the existing key in place (keeping its
position) or append a fresh key at the end. -/
def dictSet : Dict → String → MVal → Dict
  | [], k, v => [(k, v)]
  | p :: rest, k, v => if p.1 = k then (k, v) :: rest else p :: dictSet rest k v

/-- `document.py` `Document`: a chunk of text plus metadata. -/
structure Document where
  text : String
  metadata : Dict
  deriving DecidableEq

/-- An embedding vector.  The numeric contents are never inspected by the
pipeline (only lengths and positions matter), so an integer carrier suffices. -/
abbrev Vec := List Int

/-- One item of the `data` list of a parsed embedding-service response:
a JSON object (dict), a JSON array (the raw vector), or anything else. -/
inductive JItem where
  | dict : List (String × Vec) → JItem
  | list : Vec → JItem
  | other : JItem
  deriving DecidableEq

/-- Lookup of a key in a response object's fields. -/
def fieldGet : List (String × Vec) → String → Option Vec
  | [], _ => none
  | p :: rest, k => if p.1 = k then some p.2 else fieldGet rest k

/-- Errors raised by `EmbeddingClient.embed_documents`: a transport/JSON
failure, a `ValueError` for an unexpected item shape, or a `ValueError`
for a count mismatch. -/
inductive EmbedError where
  | service
  | format
  | count
  deriving DecidableEq

/-- The parsing loop over `data` in `embed_documents` (lines 95-104):
a dict with an `"embedding"` key contributes that field, a raw list
contributes itself, anything else raises the format `ValueError`. -/
def parseItems : List JItem → Except EmbedError (List Vec)
  | [] => .ok []
  | item :: rest =>
    match item with
    | .dict fields =>
      match fieldGet fields "embedding" with
      | some v => (parseItems rest).map (fun vs => v :: vs)
      | none => .error .format
    | .list v => (parseItems rest).map (fun vs => v :: vs)
    | .other => .error .format

/-- Recursion worker for `batches`, structural in a fuel argument so that
concrete instances compute by `rfl`.  With `0 < b` a fuel of `texts.length`
is always sufficient (each step consumes at least one element). -/
def batchesGo : Nat → Nat → List String → List (List String)
  | _, _, [] => []
  | 0, _, _ :: _ => []
  | fuel + 1, b, t :: ts => (t :: ts).take b :: batchesGo fuel b ((t :: ts).drop b)

/-- The batch slicing `documents[start : start + batch_size]` for
`start in range(0, len(documents), batch_size)`.  The `b = 0` case raises
`ValueError` in Python (`range` rejects step 0) and is excluded by every
theorem below via `0 < b`. -/
def batches (b : Nat) (texts : List String) : List (List String) :=
  batchesGo texts.length b texts

/-- Result of a run of `embed_documents`: the returned value (or the raised
error) together with the batches actually sent over the network, in order. -/
structure EmbedOutcome where
  result : Except EmbedError (List Vec)
  callsSent : List (List String)

/-- The batch loop of `embed_documents` (lines 69-109).  `service k` is the
parsed JSON of the response to the `k`-th HTTP call (`Except.error` models a
transport or JSON-decoding failure).  Processing is strictly sequential and
aborts at the first failing batch. -/
def embedLoop (service : Nat → Except Unit (List JItem)) :
    Nat → List (List String) → EmbedOutcome
  | _, [] => ⟨.ok [], []⟩
  | k, batch :: rest =>
    match service k with
    | .error _ => ⟨.error .service, [batch]⟩
    | .ok items =>
      match parseItems items with
      | .error e => ⟨.error e, [batch]⟩
      | .ok vs =>
        if vs.length ≠ batch.length then ⟨.error .count, [batch]⟩
        else
          let r := embedLoop service (k + 1) rest
          ⟨r.result.map (fun tail => vs ++ tail), batch :: r.callsSent⟩

/-- `EmbeddingClient.embed_documents` (lines 64-110): an empty input returns
`[]` with no call made; otherwise the input is processed in consecutive
batches of at most `batch_size` texts. -/
def embed_documents (service : Nat → Except Unit (List JItem)) (batch_size : Nat)
    (documents : List String) : EmbedOutcome :=
  if documents = [] then ⟨.ok [], []⟩
  else embedLoop service 0 (batches batch_size documents)

/-- The retry loop of `ensure_unique_path` (utils.py lines 101-105).
`suffixes` is the stream of values produced by `random_suffix()`; `none`
models the (probability-zero) case that the stream is exhausted while every
candidate still exists, i.e. non-termination of the `while` loop. -/
def ensureUniqueGo (fs : List String) (desired_name candidate : String) :
    List String → Option String
  | [] => if candidate ∈ fs then none else some candidate
  | s :: rest =>
    if candidate ∈ fs then ensureUniqueGo fs desired_name (desired_name ++ "_" ++ s) rest
    else some candidate

/-- `utils.ensure_unique_path`: starting from the desired name itself, retry
`desired_name + "_" + random_suffix()` while the candidate exists in `fs`. -/
def ensure_unique_path (fs : List String) (desired_name : String)
    (suffixes : List String) : Option String :=
  ensureUniqueGo fs desired_name desired_name suffixes

/-- Errors raised by `VectorStoreBuilder.build`: the two `ValueError`
preconditions, exhaustion of the suffix stream (non-termination of the name
loop), and an I/O failure while persisting. -/
inductive BuildError where
  | cardinality
  | emptyInput
  | nameFuel
  | persistence
  deriving DecidableEq

/-- One persisted metadata entry (vector_store.py lines 107-109):
`entry = dict(doc.metadata); entry["text"] = doc.text; entry["id"] = doc_id`. -/
def metadataEntry (doc_id : Nat) (doc : Document) : Dict :=
  dictSet (dictSet doc.metadata "text" (.str doc.text)) "id" (.nat doc_id)

/-- The `for doc_id, doc in enumerate(documents)` loop building
`metadata_list` (lines 105-110), with `doc_id` the running ordinal. -/
def metadataListGo (doc_id : Nat) : List Document → List Dict
  | [] => []
  | doc :: rest => metadataEntry doc_id doc :: metadataListGo (doc_id + 1) rest

/-- The full `metadata_list` built by `build`. -/
def metadataList (documents : List Document) : List Dict :=
  metadataListGo 0 documents

/-- Result of `VectorStoreBuilder.build`: the returned store name and the
metadata list persisted to `metadata.json` (or the raised error), together
with the filesystem state under the base directory after the call. -/
structure BuildOutcome where
  result : Except BuildError (String × List Dict)
  fs : List String

/-- `VectorStoreBuilder.build` (lines 85-126) over a filesystem `fs` listing
the paths that exist under `base_path` (directory names, and
`name ++ "/index.faiss"` / `name ++ "/metadata.json"` for their contents).
`writeOk p` tells whether the write of path `p` succeeds; a failed write
raises and leaves everything already created in place (no cleanup in the
source). -/
def build (fs : List String) (store_name : String) (suffixes : List String)
    (writeOk : String → Bool) (documents : List Document) (embeddings : List Vec) :
    BuildOutcome :=
  if documents.length ≠ embeddings.length then ⟨.error .cardinality, fs⟩
  else if embeddings = [] then ⟨.error .emptyInput, fs⟩
  else
    match ensure_unique_path fs store_name suffixes with
    | none => ⟨.error .nameFuel, fs⟩
    | some final_name =>
      if writeOk (final_name ++ "/index.faiss") then
        if writeOk (final_name ++ "/metadata.json") then
          ⟨.ok (final_name, metadataList documents),
            fs ++ [final_name, final_name ++ "/index.faiss",
              final_name ++ "/metadata.json"]⟩
        else ⟨.error .persistence, fs ++ [final_name, final_name ++ "/index.faiss"]⟩
      else ⟨.error .persistence, fs ++ [final_name]⟩

/-- Run-level errors surfaced by `run_pipeline` (cli.py). -/
inductive PipelineError where
  | noDocuments
  | embedErr (e : EmbedError)
  | buildErr (e : BuildError)
  deriving DecidableEq

/-- The per-document mutation `doc.metadata["session_id"] = config.session_id`
(cli.py line 166). -/
def stampSession (sid : String) (doc : Document) : Document :=
  { doc with metadata := dictSet doc.metadata "session_id" (.str sid) }

/-- `cli.collect_documents` (lines 118-167) with the three source
collaborators abstracted to the ordered document lists they produce
(filesystem first, then the Git repository, then Confluence).  The empty
string is falsy in Python, so `session_id = ""` stamps nothing. -/
def collect_documents (filesDocs gitDocs confluenceDocs : List Document)
    (session_id : Option String) : Except PipelineError (List Document) :=
  let documents := filesDocs ++ gitDocs ++ confluenceDocs
  if documents = [] then .error .noDocuments
  else
    match session_id with
    | some sid =>
      if sid = "" then .ok documents
      else .ok (documents.map (stampSession sid))
    | none => .ok documents

/-- Result of `run_pipeline`: the returned store name (or raised error), the
filesystem under the base directory afterwards, and the embedding-service
calls made. -/
structure PipelineOutcome where
  result : Except PipelineError String
  fs : List String
  callsSent : List (List String)

/-- `cli.run_pipeline` (lines 170-181): collect, extract texts, embed, build. -/
def run_pipeline (service : Nat → Except Unit (List JItem)) (batch_size : Nat)
    (fs : List String) (store_name : String) (suffixes : List String)
    (writeOk : String → Bool)
    (filesDocs gitDocs confluenceDocs : List Document)
    (session_id : Option String) : PipelineOutcome :=
  match collect_documents filesDocs gitDocs confluenceDocs session_id with
  | .error e => ⟨.error e, fs, []⟩
  | .ok documents =>
    match (embed_documents service batch_size (documents.map (fun d => d.text))).result with
    | .error e =>
      ⟨.error (.embedErr e), fs,
        (embed_documents service batch_size (documents.map (fun d => d.text))).callsSent⟩
    | .ok embeddings =>
      match (build fs store_name suffixes writeOk documents embeddings).result with
      | .error e =>
        ⟨.error (.buildErr e),
          (build fs store_name suffixes writeOk documents embeddings).fs,
          (embed_documents service batch_size (documents.map (fun d => d.text))).callsSent⟩
      | .ok p =>
        ⟨.ok p.1,
          (build fs store_name suffixes writeOk documents embeddings).fs,
          (embed_documents service batch_size (documents.map (fun d => d.text))).callsSent⟩

/-! ### Dictionary lemmas -/

theorem dictGet_dictSet_self (d : Dict) (k : String) (v : MVal) :
    dictGet (dictSet d k v) k = some v := by
  induction d with
  | nil => simp [dictGet, dictSet]
  | cons p rest ih =>
    by_cases h : p.1 = k
    · simp [dictSet, h, dictGet]
    · simp [dictSet, h, dictGet, ih]

theorem dictGet_dictSet_ne (d : Dict) (k q : String) (v : MVal) (h : q ≠ k) :
    dictGet (dictSet d k v) q = dictGet d q := by
  induction d with
  | nil => simp [dictGet, dictSet, Ne.symm h]
  | cons p rest ih =>
    by_cases hp : p.1 = k
    · simp [dictSet, hp, dictGet, Ne.symm h]
    · by_cases hq : p.1 = q
      · simp [dictSet, hp, dictGet, hq, h]
      · simp [dictSet, hp, dictGet, hq, ih]

/-! ### Metadata list lemmas -/

theorem metadataListGo_length (docs : List Document) :
    ∀ n, (metadataListGo n docs).length = docs.length := by
  induction docs with
  | nil => intro n; rfl
  | cons d rest ih => intro n; simp [metadataListGo, ih]

theorem metadataListGo_getElem (docs : List Document) :
    ∀ n i, (metadataListGo n docs)[i]? =
      (docs[i]?).map (fun d => metadataEntry (n + i) d) := by
  induction docs with
  | nil => intro n i; simp [metadataListGo]
  | cons d rest ih =>
    intro n i
    cases i with
    | zero => simp [metadataListGo]
    | succ j =>
      have h1 : n + 1 + j = n + (j + 1) := by omega
      simp [metadataListGo, ih (n + 1) j, h1]

theorem metadataList_getElem (docs : List Document) (i : Nat) :
    (metadataList docs)[i]? = (docs[i]?).map (fun d => metadataEntry i d) := by
  rw [metadataList, metadataListGo_getElem]
  simp

/-! ### Inversion lemmas for `build` -/

theorem build_ok_inv {fs : List String} {sn : String} {sf : List String}
    {w : String → Bool} {docs : List Document} {em : List Vec}
    {fn : String} {md : List Dict}
    (hok : (build fs sn sf w docs em).result = .ok (fn, md)) :
    docs.length = em.length ∧ em ≠ [] ∧
    ensure_unique_path fs sn sf = some fn ∧
    md = metadataList docs ∧
    w (fn ++ "/index.faiss") = true ∧ w (fn ++ "/metadata.json") = true ∧
    (build fs sn sf w docs em).fs =
      fs ++ [fn, fn ++ "/index.faiss", fn ++ "/metadata.json"] := by
  by_cases h1 : docs.length = em.length
  · by_cases h2 : em = []
    · simp [build, h1, h2] at hok
    · rcases hu : ensure_unique_path fs sn sf with _ | fn2
      · simp [build, h1, h2, hu] at hok
      · by_cases h3 : w (fn2 ++ "/index.faiss") = true
        · by_cases h4 : w (fn2 ++ "/metadata.json") = true
          · have hred : (build fs sn sf w docs em).result =
                .ok (fn2, metadataList docs) := by
              simp [build, h1, h2, hu, h3, h4]
            rw [hred] at hok
            obtain ⟨hfn, hmd⟩ : fn2 = fn ∧ metadataList docs = md := by
              simpa using hok
            subst hfn
            exact ⟨h1, h2, rfl, hmd.symm, h3, h4, by simp [build, h1, h2, hu, h3, h4]⟩
          · simp [build, h1, h2, hu, h3, h4] at hok
        · simp [build, h1, h2, hu, h3] at hok
  · simp [build, h1] at hok

theorem build_error_inv {fs : List String} {sn : String} {sf : List String}
    {w : String → Bool} {docs : List Document} {em : List Vec} {e : BuildError}
    (herr : (build fs sn sf w docs em).result = .error e) :
    (e ≠ .persistence → (build fs sn sf w docs em).fs = fs) ∧
    (e = .persistence → ∃ fn, ensure_unique_path fs sn sf = some fn ∧
      ((build fs sn sf w docs em).fs = fs ++ [fn] ∨
       (build fs sn sf w docs em).fs = fs ++ [fn, fn ++ "/index.faiss"])) := by
  by_cases h1 : docs.length = em.length
  · by_cases h2 : em = []
    · constructor
      · intro _; simp [build, h1, h2]
      · intro he
        have : e = BuildError.emptyInput := by simpa [build, h1, h2] using herr.symm
        rw [this] at he; cases he
    · rcases hu : ensure_unique_path fs sn sf with _ | fn2
      · constructor
        · intro _; simp [build, h1, h2, hu]
        · intro he
          have : e = BuildError.nameFuel := by simpa [build, h1, h2, hu] using herr.symm
          rw [this] at he; cases he
      · by_cases h3 : w (fn2 ++ "/index.faiss") = true
        · by_cases h4 : w (fn2 ++ "/metadata.json") = true
          · exfalso; simp [build, h1, h2, hu, h3, h4] at herr
          · constructor
            · intro hne
              exfalso
              have : e = BuildError.persistence := by
                simpa [build, h1, h2, hu, h3, h4] using herr.symm
              exact hne this
            · intro _
              exact ⟨fn2, rfl, Or.inr (by simp [build, h1, h2, hu, h3, h4])⟩
        · constructor
          · intro hne
            exfalso
            have : e = BuildError.persistence := by
              simpa [build, h1, h2, hu, h3] using herr.symm
            exact hne this
          · intro _
            exact ⟨fn2, rfl, Or.inl (by simp [build, h1, h2, hu, h3])⟩
  · constructor
    · intro _; simp [build, h1]
    · intro he
      have : e = BuildError.cardinality := by simpa [build, h1] using herr.symm
      rw [this] at he; cases he

/-! ### Claim C1: metadata projection of `build` -/

/-- C1: for every non-empty pair of equal-length (documents, vectors) sequences,
a successful `build` produces a metadata list of the same length as the input in
which the entry at position `i` has `id = i`, `text = documents[i].text`, and
every remaining field equal to the corresponding field of
`documents[i].metadata`, in input order. -/
theorem build_metadata_projection
    (fs : List String) (store_name : String) (suffixes : List String)
    (writeOk : String → Bool) (documents : List Document) (embeddings : List Vec)
    (final_name : String) (md : List Dict)
    (hok : (build fs store_name suffixes writeOk documents embeddings).result
        = .ok (final_name, md)) :
    md.length = documents.length ∧
    ∀ i doc, documents[i]? = some doc →
      ∃ entry, md[i]? = some entry ∧
        dictGet entry "id" = some (.nat i) ∧
        dictGet entry "text" = some (.str doc.text) ∧
        ∀ k, k ≠ "id" → k ≠ "text" → dictGet entry k = dictGet doc.metadata k := by
  obtain ⟨-, -, -, hmd, -, -, -⟩ := build_ok_inv hok
  subst hmd
  refine ⟨by rw [metadataList, metadataListGo_length], ?_⟩
  intro i doc hdoc
  refine ⟨metadataEntry i doc, ?_, ?_, ?_, ?_⟩
  · rw [metadataList_getElem, hdoc]; rfl
  · exact dictGet_dictSet_self _ _ _
  · rw [metadataEntry, dictGet_dictSet_ne _ _ _ _ (by decide)]
    exact dictGet_dictSet_self _ _ _
  · intro k hk1 hk2
    rw [metadataEntry, dictGet_dictSet_ne _ _ _ _ hk1, dictGet_dictSet_ne _ _ _ _ hk2]

/-- Witness for C1 at a concrete one-document build. -/
theorem build_metadata_projection_witness :
    ∃ entry,
      (metadataList [⟨"a", [("k", MVal.str "v")]⟩])[0]? = some entry ∧
      dictGet entry "id" = some (.nat 0) ∧
      dictGet entry "text" = some (.str "a") ∧
      ∀ k, k ≠ "id" → k ≠ "text" →
        dictGet entry k = dictGet [("k", MVal.str "v")] k :=
  (build_metadata_projection [] "s" [] (fun _ => true)
      [⟨"a", [("k", MVal.str "v")]⟩] [[1]] "s"
      (metadataList [⟨"a", [("k", MVal.str "v")]⟩]) rfl).2
    0 ⟨"a", [("k", MVal.str "v")]⟩ rfl

/-! ### Claim C10: reserved keys `text` and `id` are overwritten -/

/-- C10: for every document whose metadata already carries a `"text"` or
`"id"` key, the persisted entry silently overwrites those fields: the entry
for position `i` is exactly `metadataEntry i doc`, whose `"text"` value is
the document's text and whose `"id"` value is the ordinal `i`, so the
original metadata values under those two keys are never persisted. -/
theorem metadata_reserved_keys_overwritten
    (documents : List Document) (i : Nat) (doc : Document)
    (hdoc : documents[i]? = some doc)
    (hclash : dictGet doc.metadata "text" ≠ none ∨ dictGet doc.metadata "id" ≠ none) :
    (metadataList documents)[i]? = some (metadataEntry i doc) ∧
    dictGet (metadataEntry i doc) "text" = some (.str doc.text) ∧
    dictGet (metadataEntry i doc) "id" = some (.nat i) := by
  refine ⟨?_, ?_, ?_⟩
  · rw [metadataList_getElem, hdoc]; rfl
  · rw [metadataEntry, dictGet_dictSet_ne _ _ _ _ (by decide)]
    exact dictGet_dictSet_self _ _ _
  · exact dictGet_dictSet_self _ _ _

/-- Witness for C10: a document carrying both reserved keys with other
values; the persisted entry replaces both. -/
theorem metadata_reserved_keys_overwritten_witness :
    (metadataList [⟨"real", [("text", MVal.str "orig"), ("id", MVal.nat 99)]⟩])[0]?
      = some (metadataEntry 0 ⟨"real", [("text", MVal.str "orig"), ("id", MVal.nat 99)]⟩) ∧
    dictGet (metadataEntry 0 ⟨"real", [("text", MVal.str "orig"), ("id", MVal.nat 99)]⟩)
      "text" = some (.str "real") ∧
    dictGet (metadataEntry 0 ⟨"real", [("text", MVal.str "orig"), ("id", MVal.nat 99)]⟩)
      "id" = some (.nat 0) :=
  metadata_reserved_keys_overwritten
    [⟨"real", [("text", MVal.str "orig"), ("id", MVal.nat 99)]⟩] 0
    ⟨"real", [("text", MVal.str "orig"), ("id", MVal.nat 99)]⟩ rfl
    (Or.inl (by decide))

/-! ### Claim C4: `build` precondition failures -/

/-- C4: `build` fails with the cardinality error whenever the two input
sequences have different lengths, and with the empty-input error when the
vector sequence is empty (lengths matching); in both cases the filesystem
under the base directory is left unchanged (no directory created, no index
persisted). -/
theorem build_precondition_failures
    (fs : List String) (store_name : String) (suffixes : List String)
    (writeOk : String → Bool) (documents : List Document) (embeddings : List Vec) :
    (documents.length ≠ embeddings.length →
      build fs store_name suffixes writeOk documents embeddings
        = ⟨.error .cardinality, fs⟩) ∧
    (documents.length = embeddings.length → embeddings = [] →
      build fs store_name suffixes writeOk documents embeddings
        = ⟨.error .emptyInput, fs⟩) := by
  constructor
  · intro h; simp [build, h]
  · intro h1 h2; simp [build, h1, h2]

/-- Witness for C4: one concrete mismatched call and one concrete empty call. -/
theorem build_precondition_failures_witness :
    build [] "s" [] (fun _ => true) [⟨"a", []⟩] []
      = ⟨.error .cardinality, []⟩ ∧
    build [] "s" [] (fun _ => true) [] []
      = ⟨.error .emptyInput, []⟩ :=
  ⟨(build_precondition_failures [] "s" [] (fun _ => true) [⟨"a", []⟩] []).1
      (by decide),
   (build_precondition_failures [] "s" [] (fun _ => true) [] []).2 rfl rfl⟩

/-! ### Collision-safe naming -/

theorem ensureUniqueGo_spec :
    ∀ (suffixes fs : List String) (dn cand c : String),
      ensureUniqueGo fs dn cand suffixes = some c →
      c ∉ fs ∧ (cand ∉ fs → c = cand) ∧
      (cand ∈ fs → ∃ s ∈ suffixes, c = dn ++ "_" ++ s) := by
  intro suffixes
  induction suffixes with
  | nil =>
    intro fs dn cand c h
    unfold ensureUniqueGo at h
    by_cases hc : cand ∈ fs
    · simp [hc] at h
    · rw [if_neg hc] at h
      obtain rfl : cand = c := by simpa using h
      exact ⟨hc, fun _ => rfl, fun hmem => absurd hmem hc⟩
  | cons s rest ih =>
    intro fs dn cand c h
    unfold ensureUniqueGo at h
    by_cases hc : cand ∈ fs
    · rw [if_pos hc] at h
      obtain ⟨h1, h2, h3⟩ := ih fs dn (dn ++ "_" ++ s) c h
      refine ⟨h1, fun hnc => absurd hc hnc, fun _ => ?_⟩
      by_cases hc2 : (dn ++ "_" ++ s) ∈ fs
      · obtain ⟨t, ht, hct⟩ := h3 hc2
        exact ⟨t, List.mem_cons_of_mem _ ht, hct⟩
      · exact ⟨s, List.mem_cons_self _ _, h2 hc2⟩
    · rw [if_neg hc] at h
      obtain rfl : cand = c := by simpa using h
      exact ⟨hc, fun _ => rfl, fun hmem => absurd hmem hc⟩

theorem ensure_unique_path_spec {fs : List String} {dn : String}
    {suffixes : List String} {c : String}
    (h : ensure_unique_path fs dn suffixes = some c) :
    c ∉ fs ∧ (dn ∉ fs → c = dn) ∧
    (dn ∈ fs → ∃ s ∈ suffixes, c = dn ++ "_" ++ s) :=
  ensureUniqueGo_spec suffixes fs dn dn c h

/-! ### Claim C6: collision-safe store naming across two builds -/

/-- C6: a successful `build` resolves a name that does not exist under the
base directory at check time — the requested name itself if unused, otherwise
the requested name with an appended random suffix — so two successive
successful builds with the same requested name return distinct resolved
names, and the directory and files created by the first build are still
present after the second. -/
theorem build_collision_safe_naming
    (fs : List String) (store_name : String) (sf1 sf2 : List String)
    (w1 w2 : String → Bool) (d1 d2 : List Document) (e1 e2 : List Vec)
    (fn1 fn2 : String) (md1 md2 : List Dict)
    (h1 : (build fs store_name sf1 w1 d1 e1).result = .ok (fn1, md1))
    (h2 : (build (build fs store_name sf1 w1 d1 e1).fs store_name sf2 w2 d2 e2).result
        = .ok (fn2, md2)) :
    fn1 ∉ fs ∧
    (store_name ∉ fs → fn1 = store_name) ∧
    (store_name ∈ fs → ∃ s ∈ sf1, fn1 = store_name ++ "_" ++ s) ∧
    fn1 ≠ fn2 ∧
    fn1 ∈ (build (build fs store_name sf1 w1 d1 e1).fs store_name sf2 w2 d2 e2).fs ∧
    fn1 ++ "/index.faiss"
      ∈ (build (build fs store_name sf1 w1 d1 e1).fs store_name sf2 w2 d2 e2).fs ∧
    fn1 ++ "/metadata.json"
      ∈ (build (build fs store_name sf1 w1 d1 e1).fs store_name sf2 w2 d2 e2).fs := by
  obtain ⟨-, -, hu1, -, -, -, hfs1⟩ := build_ok_inv h1
  obtain ⟨-, -, hu2, -, -, -, hfs2⟩ := build_ok_inv h2
  obtain ⟨hn1, hreq1, hsuf1⟩ := ensure_unique_path_spec hu1
  obtain ⟨hn2, -, -⟩ := ensure_unique_path_spec hu2
  have hfn1mem : fn1 ∈ (build fs store_name sf1 w1 d1 e1).fs := by
    rw [hfs1]; simp
  have hidx1mem : fn1 ++ "/index.faiss" ∈ (build fs store_name sf1 w1 d1 e1).fs := by
    rw [hfs1]; simp
  have hmeta1mem : fn1 ++ "/metadata.json" ∈ (build fs store_name sf1 w1 d1 e1).fs := by
    rw [hfs1]; simp
  refine ⟨hn1, hreq1, hsuf1, ?_, ?_, ?_, ?_⟩
  · intro heq
    exact hn2 (heq ▸ hfn1mem)
  · rw [hfs2]; exact List.mem_append_left _ hfn1mem
  · rw [hfs2]; exact List.mem_append_left _ hidx1mem
  · rw [hfs2]; exact List.mem_append_left _ hmeta1mem

/-- Witness for C6: two concrete builds requesting `"store1"` against the
same (initially empty) base directory. -/
theorem build_collision_safe_naming_witness :
    "store1" ∉ ([] : List String) ∧
    ("store1" ∉ ([] : List String) → "store1" = "store1") ∧
    ("store1" ∈ ([] : List String) →
      ∃ s ∈ ([] : List String), "store1" = "store1" ++ "_" ++ s) ∧
    "store1" ≠ "store1_X" ∧
    "store1" ∈ (build (build [] "store1" [] (fun _ => true) [⟨"a", []⟩] [[1]]).fs
        "store1" ["X"] (fun _ => true) [⟨"b", []⟩] [[2]]).fs ∧
    "store1" ++ "/index.faiss"
      ∈ (build (build [] "store1" [] (fun _ => true) [⟨"a", []⟩] [[1]]).fs
        "store1" ["X"] (fun _ => true) [⟨"b", []⟩] [[2]]).fs ∧
    "store1" ++ "/metadata.json"
      ∈ (build (build [] "store1" [] (fun _ => true) [⟨"a", []⟩] [[1]]).fs
        "store1" ["X"] (fun _ => true) [⟨"b", []⟩] [[2]]).fs :=
  build_collision_safe_naming [] "store1" [] ["X"] (fun _ => true) (fun _ => true)
    [⟨"a", []⟩] [⟨"b", []⟩] [[1]] [[2]] "store1" "store1_X"
    (metadataList [⟨"a", []⟩]) (metadataList [⟨"b", []⟩]) rfl rfl

/-! ### Batch-slicing lemmas -/

theorem batchesGo_fuel (b : Nat) (hb : 0 < b) :
    ∀ (fuel fuel2 : Nat) (l : List String), l.length ≤ fuel → l.length ≤ fuel2 →
      batchesGo fuel b l = batchesGo fuel2 b l := by
  intro fuel
  induction fuel with
  | zero =>
    intro fuel2 l hl _
    obtain rfl : l = [] := List.eq_nil_of_length_eq_zero (Nat.le_zero.mp hl)
    cases fuel2 <;> rfl
  | succ f ih =>
    intro fuel2 l hl hl2
    cases l with
    | nil => cases fuel2 <;> rfl
    | cons t ts =>
      cases fuel2 with
      | zero => simp at hl2
      | succ f2 =>
        simp only [batchesGo]
        congr 1
        refine ih f2 ((t :: ts).drop b) ?_ ?_ <;>
          · rw [List.length_drop]
            simp only [List.length_cons] at hl hl2 ⊢
            omega

theorem batches_nil (b : Nat) : batches b [] = [] := rfl

theorem batches_cons_eq (b : Nat) (hb : 0 < b) (texts : List String)
    (h : texts ≠ []) :
    batches b texts = texts.take b :: batches b (texts.drop b) := by
  obtain ⟨t, ts, rfl⟩ := List.exists_cons_of_ne_nil h
  show batchesGo ((t :: ts).length) b (t :: ts) = _
  simp only [List.length_cons, batchesGo]
  congr 1
  refine batchesGo_fuel b hb ts.length ((t :: ts).drop b).length ((t :: ts).drop b) ?_ le_rfl
  rw [List.length_drop]
  simp only [List.length_cons]
  omega

theorem batches_eq_nil_iff (b : Nat) (hb : 0 < b) (texts : List String) :
    batches b texts = [] ↔ texts = [] := by
  constructor
  · intro h
    by_contra hne
    rw [batches_cons_eq b hb texts hne] at h
    cases h
  · intro h; rw [h, batches_nil]

theorem batches_join (b : Nat) (hb : 0 < b) (texts : List String) :
    (batches b texts).flatten = texts := by
  suffices H : ∀ n (l : List String), l.length ≤ n → (batches b l).flatten = l from
    H texts.length texts le_rfl
  intro n
  induction n with
  | zero =>
    intro l hl
    obtain rfl : l = [] := List.eq_nil_of_length_eq_zero (Nat.le_zero.mp hl)
    simp [batches_nil]
  | succ n ih =>
    intro l hl
    by_cases hne : l = []
    · simp [hne, batches_nil]
    · rw [batches_cons_eq b hb l hne]
      have hlen : (l.drop b).length ≤ n := by
        rw [List.length_drop]
        have : l.length ≠ 0 := fun hz => hne (List.eq_nil_of_length_eq_zero hz)
        omega
      simp only [List.flatten_cons, ih (l.drop b) hlen]
      exact List.take_append_drop b l

theorem batches_length (b : Nat) (hb : 0 < b) (texts : List String) :
    (batches b texts).length = (texts.length + b - 1) / b := by
  suffices H : ∀ n (l : List String), l.length ≤ n →
      (batches b l).length = (l.length + b - 1) / b from
    H texts.length texts le_rfl
  intro n
  induction n with
  | zero =>
    intro l hl
    obtain rfl : l = [] := List.eq_nil_of_length_eq_zero (Nat.le_zero.mp hl)
    simp [batches_nil, Nat.div_eq_of_lt (by omega : b - 1 < b)]
  | succ n ih =>
    intro l hl
    by_cases hne : l = []
    · simp [hne, batches_nil, Nat.div_eq_of_lt (by omega : b - 1 < b)]
    · rw [batches_cons_eq b hb l hne]
      have hpos : 0 < l.length :=
        Nat.pos_of_ne_zero (fun hz => hne (List.eq_nil_of_length_eq_zero hz))
      have hdiv : (l.length + b - 1) / b = (l.length - 1) / b + 1 := by
        have harith : l.length + b - 1 = (l.length - 1) + b := by omega
        rw [harith, Nat.add_div_right _ hb]
      rw [hdiv]
      by_cases hle : l.length ≤ b
      · have hdropnil : l.drop b = [] := List.drop_eq_nil_of_le hle
        rw [hdropnil, batches_nil]
        simp [Nat.div_eq_of_lt (by omega : l.length - 1 < b)]
      · push_neg at hle
        have hlen : (l.drop b).length ≤ n := by
          rw [List.length_drop]; omega
        have := ih (l.drop b) hlen
        rw [List.length_drop] at this
        simp only [List.length_cons, this]
        have harith2 : l.length - b + b - 1 = l.length - 1 := by omega
        rw [harith2]

theorem batches_mem_le (b : Nat) (hb : 0 < b) (texts : List String) :
    ∀ bl ∈ batches b texts, bl.length ≤ b ∧ bl ≠ [] := by
  suffices H : ∀ n (l : List String), l.length ≤ n →
      ∀ bl ∈ batches b l, bl.length ≤ b ∧ bl ≠ [] from
    H texts.length texts le_rfl
  intro n
  induction n with
  | zero =>
    intro l hl
    obtain rfl : l = [] := List.eq_nil_of_length_eq_zero (Nat.le_zero.mp hl)
    simp [batches_nil]
  | succ n ih =>
    intro l hl bl hbl
    by_cases hne : l = []
    · rw [hne, batches_nil] at hbl; cases hbl
    · rw [batches_cons_eq b hb l hne] at hbl
      have hpos : 0 < l.length :=
        Nat.pos_of_ne_zero (fun hz => hne (List.eq_nil_of_length_eq_zero hz))
      rcases List.mem_cons.mp hbl with heq | hmem
      · subst heq
        refine ⟨by simp, ?_⟩
        intro habs
        have : min b l.length = 0 := by
          simpa [List.length_eq_zero] using congrArg List.length habs
        omega
      · exact ih (l.drop b) (by rw [List.length_drop]; omega) bl hmem

theorem batches_full (b : Nat) (hb : 0 < b) (texts : List String) :
    ∀ i bl, i + 1 < (batches b texts).length →
      (batches b texts)[i]? = some bl → bl.length = b := by
  suffices H : ∀ n (l : List String), l.length ≤ n →
      ∀ i bl, i + 1 < (batches b l).length → (batches b l)[i]? = some bl →
        bl.length = b from
    H texts.length texts le_rfl
  intro n
  induction n with
  | zero =>
    intro l hl
    obtain rfl : l = [] := List.eq_nil_of_length_eq_zero (Nat.le_zero.mp hl)
    simp [batches_nil]
  | succ n ih =>
    intro l hl i bl hlt hget
    by_cases hne : l = []
    · rw [hne, batches_nil] at hlt; simp at hlt
    · rw [batches_cons_eq b hb l hne] at hlt hget
      have hpos : 0 < l.length :=
        Nat.pos_of_ne_zero (fun hz => hne (List.eq_nil_of_length_eq_zero hz))
      cases i with
      | zero =>
        obtain rfl : l.take b = bl := by simpa using hget
        simp only [List.length_cons] at hlt
        have hrest : batches b (l.drop b) ≠ [] := by
          intro habs; rw [habs] at hlt; simp at hlt
        have hdrop : l.drop b ≠ [] := by
          intro habs; exact hrest (by rw [habs, batches_nil])
        have : ¬ l.length ≤ b := by
          intro hle; exact hdrop (List.drop_eq_nil_of_le hle)
        simp [List.length_take]; omega
      | succ j =>
        simp only [List.length_cons, List.getElem?_cons_succ] at hlt hget
        exact ih (l.drop b) (by rw [List.length_drop]; omega) j bl
          (by omega) hget

theorem getLast?_cons_of_ne_nil {α : Type} (a : α) (l : List α) (h : l ≠ []) :
    (a :: l).getLast? = l.getLast? := by
  cases l with
  | nil => exact absurd rfl h
  | cons x xs => rfl

theorem batches_last (b : Nat) (hb : 0 < b) (texts : List String) :
    texts ≠ [] → ∀ bl, (batches b texts).getLast? = some bl →
      bl.length = if texts.length % b = 0 then b else texts.length % b := by
  suffices H : ∀ n (l : List String), l.length ≤ n → l ≠ [] →
      ∀ bl, (batches b l).getLast? = some bl →
        bl.length = if l.length % b = 0 then b else l.length % b from
    H texts.length texts le_rfl
  intro n
  induction n with
  | zero =>
    intro l hl hne
    exact absurd (List.eq_nil_of_length_eq_zero (Nat.le_zero.mp hl)) hne
  | succ n ih =>
    intro l hl hne bl hlast
    rw [batches_cons_eq b hb l hne] at hlast
    have hpos : 0 < l.length :=
      Nat.pos_of_ne_zero (fun hz => hne (List.eq_nil_of_length_eq_zero hz))
    by_cases hle : l.length ≤ b
    · have hdropnil : l.drop b = [] := List.drop_eq_nil_of_le hle
      rw [hdropnil, batches_nil] at hlast
      obtain rfl : l.take b = bl := by simpa using hlast
      by_cases heq : l.length = b
      · simp [List.length_take, heq, Nat.mod_self]
      · have hlt : l.length < b := by omega
        rw [Nat.mod_eq_of_lt hlt, if_neg (by omega)]
        simp [List.length_take]; omega
    · push_neg at hle
      have hdrop : l.drop b ≠ [] := by
        intro habs
        have := congrArg List.length habs
        rw [List.length_drop] at this
        simp at this; omega
      have hrest : batches b (l.drop b) ≠ [] :=
        fun habs => hdrop ((batches_eq_nil_iff b hb _).mp habs)
      rw [getLast?_cons_of_ne_nil _ _ hrest] at hlast
      have := ih (l.drop b) (by rw [List.length_drop]; omega) hdrop bl hlast
      rw [List.length_drop] at this
      have hmod : l.length % b = (l.length - b) % b := by
        conv_lhs => rw [← Nat.sub_add_cancel (le_of_lt hle)]
        rw [Nat.add_mod_right]
      rw [hmod]
      exact this

/-! ### Embedding-loop lemmas -/

theorem parseItems_map_list (g : String → Vec) (l : List String) :
    parseItems (l.map (fun t => JItem.list (g t))) = .ok (l.map g) := by
  induction l with
  | nil => rfl
  | cons t rest ih => simp [parseItems, ih, Except.map]

/-- Running the loop on `bs1 ++ bs2` when every batch of `bs1` gets a
well-formed itemwise response: the `bs1` part contributes its texts' vectors
and all its calls, and the loop continues into `bs2` at the shifted call
ordinal. -/
theorem embedLoop_append_good (g : String → Vec) :
    ∀ (bs1 bs2 : List (List String)) (service : Nat → Except Unit (List JItem))
      (k : Nat),
      (∀ j bj, bs1[j]? = some bj →
        service (k + j) = .ok (bj.map (fun t => JItem.list (g t)))) →
      embedLoop service k (bs1 ++ bs2) =
        ⟨(embedLoop service (k + bs1.length) bs2).result.map
            (fun tail => (bs1.flatten).map g ++ tail),
          bs1 ++ (embedLoop service (k + bs1.length) bs2).callsSent⟩ := by
  intro bs1
  induction bs1 with
  | nil =>
    intro bs2 service k _
    rcases hE : embedLoop service k bs2 with ⟨res, calls⟩
    simp only [List.nil_append, List.length_nil, Nat.add_zero, hE,
      List.flatten_nil, List.map_nil]
    cases res <;> simp [Except.map]
  | cons batch rest ih =>
    intro bs2 service k h
    have hbatch : service k = .ok (batch.map (fun t => JItem.list (g t))) := by
      have := h 0 batch (by simp)
      simpa using this
    have hshift : ∀ j bj, rest[j]? = some bj →
        service (k + 1 + j) = .ok (bj.map (fun t => JItem.list (g t))) := by
      intro j bj hj
      have harith : k + (j + 1) = k + 1 + j := by omega
      have := h (j + 1) bj (by simpa using hj)
      rwa [harith] at this
    have hIH := ih bs2 service (k + 1) hshift
    rw [List.cons_append]
    rw [show embedLoop service k (batch :: (rest ++ bs2)) =
        match service k with
        | .error _ => ⟨.error .service, [batch]⟩
        | .ok items =>
          match parseItems items with
          | .error e => ⟨.error e, [batch]⟩
          | .ok vs =>
            if vs.length ≠ batch.length then ⟨.error .count, [batch]⟩
            else
              ⟨(embedLoop service (k + 1) (rest ++ bs2)).result.map
                  (fun tail => vs ++ tail),
                batch :: (embedLoop service (k + 1) (rest ++ bs2)).callsSent⟩
      from rfl]
    rw [hbatch]
    simp only [parseItems_map_list g batch]
    rw [if_neg (by simp)]
    rw [hIH]
    rcases hE : (embedLoop service (k + 1 + rest.length) bs2) with ⟨res, calls⟩
    have harith : k + (rest.length + 1) = k + 1 + rest.length := by omega
    simp only [List.length_cons, harith, hE]
    cases res <;>
      simp [Except.map, List.flatten_cons, List.map_append, List.append_assoc]

/-- Running the loop when every batch gets a response that parses to exactly
one vector per text: the loop succeeds, makes every call, and returns one
vector per input text. -/
theorem embedLoop_all_good :
    ∀ (bs : List (List String)) (service : Nat → Except Unit (List JItem))
      (k : Nat),
      (∀ j bj, bs[j]? = some bj → ∃ items vs,
        service (k + j) = .ok items ∧ parseItems items = .ok vs ∧
        vs.length = bj.length) →
      ∃ out, embedLoop service k bs = ⟨.ok out, bs⟩ ∧
        out.length = bs.flatten.length := by
  intro bs
  induction bs with
  | nil => intro service k _; exact ⟨[], rfl, rfl⟩
  | cons batch rest ih =>
    intro service k h
    have h0 := h 0 batch (by simp)
    obtain ⟨items, vs, hsvc, hparse, hlen⟩ := h0
    rw [Nat.add_zero] at hsvc
    have hshift : ∀ j bj, rest[j]? = some bj → ∃ items2 vs2,
        service (k + 1 + j) = .ok items2 ∧ parseItems items2 = .ok vs2 ∧
        vs2.length = bj.length := by
      intro j bj hj
      have harith : k + (j + 1) = k + 1 + j := by omega
      have := h (j + 1) bj (by simpa using hj)
      rwa [harith] at this
    obtain ⟨out, hE, hout⟩ := ih service (k + 1) hshift
    refine ⟨vs ++ out, ?_, ?_⟩
    · rw [show embedLoop service k (batch :: rest) =
          match service k with
          | .error _ => ⟨.error .service, [batch]⟩
          | .ok items =>
            match parseItems items with
            | .error e => ⟨.error e, [batch]⟩
            | .ok vs =>
              if vs.length ≠ batch.length then ⟨.error .count, [batch]⟩
              else
                ⟨(embedLoop service (k + 1) rest).result.map
                    (fun tail => vs ++ tail),
                  batch :: (embedLoop service (k + 1) rest).callsSent⟩
        from rfl]
      rw [hsvc]
      simp only [hparse]
      rw [if_neg (by simp [hlen])]
      rw [hE]
      rfl
    · simp [hout, hlen]

/-- Shared helper: with itemwise well-formed responses (`g` giving each
text's vector), `embed_documents` returns `texts.map g` and makes exactly
the calls `batches b texts`. -/
theorem embed_documents_itemwise
    (service : Nat → Except Unit (List JItem)) (b : Nat) (texts : List String)
    (g : String → Vec) (hb : 0 < b)
    (hg : ∀ j bj, (batches b texts)[j]? = some bj →
        service j = .ok (bj.map (fun t => JItem.list (g t)))) :
    (embed_documents service b texts).result = .ok (texts.map g) ∧
    (embed_documents service b texts).callsSent = batches b texts := by
  by_cases hne : texts = []
  · subst hne
    exact ⟨by simp [embed_documents], by simp [embed_documents, batches_nil]⟩
  · have hg0 : ∀ j bj, (batches b texts)[j]? = some bj →
        service (0 + j) = .ok (bj.map (fun t => JItem.list (g t))) := by
      intro j bj hj; simpa using hg j bj hj
    have hAG := embedLoop_append_good g (batches b texts) [] service 0 hg0
    rw [List.append_nil] at hAG
    constructor
    · simp only [embed_documents, if_neg hne, hAG]
      show Except.map _ (embedLoop service _ []).result = _
      simp only [embedLoop, Except.map, List.append_nil]
      rw [batches_join b hb texts]
    · simp only [embed_documents, if_neg hne, hAG]
      show _ ++ (embedLoop service _ []).callsSent = _
      simp [embedLoop]

/-! ### Claim C2: `embed_documents` is length- and order-preserving -/

/-- C2: when every batch response is well-formed and carries one vector per
input, `embed_documents` returns exactly `texts.length` vectors; when each
text's vector is determined by `g`, the output is `texts.map g` (so order is
preserved); and the empty input returns `[]` with no external call made. -/
theorem embed_documents_length_order
    (service : Nat → Except Unit (List JItem)) (b : Nat) (texts : List String)
    (g : String → Vec) (hb : 0 < b) :
    ((∀ j bj, (batches b texts)[j]? = some bj → ∃ items vs,
        service j = .ok items ∧ parseItems items = .ok vs ∧
        vs.length = bj.length) →
      ∃ out, (embed_documents service b texts).result = .ok out ∧
        out.length = texts.length) ∧
    ((∀ j bj, (batches b texts)[j]? = some bj →
        service j = .ok (bj.map (fun t => JItem.list (g t)))) →
      (embed_documents service b texts).result = .ok (texts.map g) ∧
      (embed_documents service b texts).callsSent = batches b texts) ∧
    embed_documents service b [] = ⟨.ok [], []⟩ := by
  refine ⟨?_, ?_, by simp [embed_documents]⟩
  · intro hwf
    by_cases hne : texts = []
    · subst hne
      exact ⟨[], by simp [embed_documents], rfl⟩
    · have hwf0 : ∀ j bj, (batches b texts)[j]? = some bj → ∃ items vs,
          service (0 + j) = .ok items ∧ parseItems items = .ok vs ∧
          vs.length = bj.length := by
        intro j bj hj; simpa using hwf j bj hj
      obtain ⟨out, hE, hlen⟩ := embedLoop_all_good (batches b texts) service 0 hwf0
      refine ⟨out, ?_, ?_⟩
      · simp only [embed_documents, if_neg hne, hE]
      · rw [hlen, batches_join b hb texts]
  · exact embed_documents_itemwise service b texts g hb

/-- Witness for C2: three texts in batches of two, every response itemwise
well-formed; and the empty input makes no call. -/
theorem embed_documents_length_order_witness :
    ((embed_documents
        (fun j => .ok ((((batches 2 ["x", "y", "z"])[j]?).getD []).map
          (fun _ => JItem.list [0])))
        2 ["x", "y", "z"]).result
      = .ok (["x", "y", "z"].map (fun _ => ([0] : Vec)))) ∧
    ((embed_documents
        (fun j => .ok ((((batches 2 ["x", "y", "z"])[j]?).getD []).map
          (fun _ => JItem.list [0])))
        2 ["x", "y", "z"]).callsSent = batches 2 ["x", "y", "z"]) ∧
    embed_documents
        (fun j => .ok ((((batches 2 ["x", "y", "z"])[j]?).getD []).map
          (fun _ => JItem.list [0])))
        2 [] = ⟨.ok [], []⟩ := by
  have H := embed_documents_length_order
    (fun j => .ok ((((batches 2 ["x", "y", "z"])[j]?).getD []).map
      (fun _ => JItem.list [0])))
    2 ["x", "y", "z"] (fun _ => [0]) (by decide)
  have H1 := H.2.1 (by intro j bj h; simp [h])
  exact ⟨H1.1, H1.2, H.2.2⟩

/-! ### Claim C3: batch partitioning of `embed_documents` -/

/-- C3: on a non-empty input of `n` texts with positive batch size `b`, and
well-formed responses, `embed_documents` issues exactly `⌈n/b⌉` calls whose
payloads are the consecutive slices of the input in order: each batch has at
most `b` texts, every batch but the last has exactly `b`, and the last has
`n % b` (or `b` when `b` divides `n`). -/
theorem embed_documents_batching
    (service : Nat → Except Unit (List JItem)) (b : Nat) (texts : List String)
    (g : String → Vec) (hb : 0 < b) (hne : texts ≠ [])
    (hserv : ∀ j bj, (batches b texts)[j]? = some bj →
        service j = .ok (bj.map (fun t => JItem.list (g t)))) :
    (embed_documents service b texts).callsSent = batches b texts ∧
    (batches b texts).flatten = texts ∧
    (∀ bl ∈ batches b texts, bl.length ≤ b) ∧
    (batches b texts).length = (texts.length + b - 1) / b ∧
    (∀ i bl, i + 1 < (batches b texts).length →
      (batches b texts)[i]? = some bl → bl.length = b) ∧
    (∀ bl, (batches b texts).getLast? = some bl →
      bl.length = if texts.length % b = 0 then b else texts.length % b) :=
  ⟨(embed_documents_itemwise service b texts g hb hserv).2,
   batches_join b hb texts,
   fun bl h => (batches_mem_le b hb texts bl h).1,
   batches_length b hb texts,
   batches_full b hb texts,
   batches_last b hb texts hne⟩

/-- Witness for C3: five texts, batch size two — three calls with sizes
2, 2, 1 (scenario B of the specification). -/
theorem embed_documents_batching_witness :
    ((embed_documents
        (fun j => .ok ((((batches 2 ["a", "b", "c", "d", "e"])[j]?).getD []).map
          (fun _ => JItem.list [0])))
        2 ["a", "b", "c", "d", "e"]).callsSent
      = batches 2 ["a", "b", "c", "d", "e"]) ∧
    (batches 2 ["a", "b", "c", "d", "e"]).length = (5 + 2 - 1) / 2 ∧
    batches 2 ["a", "b", "c", "d", "e"] = [["a", "b"], ["c", "d"], ["e"]] := by
  have H := embed_documents_batching
    (fun j => .ok ((((batches 2 ["a", "b", "c", "d", "e"])[j]?).getD []).map
      (fun _ => JItem.list [0])))
    2 ["a", "b", "c", "d", "e"] (fun _ => [0]) (by decide) (by decide)
    (by intro j bj h; simp [h])
  exact ⟨H.1, H.2.2.2.1, rfl⟩

/-! ### Claim C5: response shape and count validation -/

/-- C5: per item, the response parser accepts exactly two shapes — a raw
vector, or an object carrying the vector under the `"embedding"` field — and
fails with the format error on any other shape; and when the vectors parsed
from the `k`-th batch do not number one per text sent, `embed_documents`
fails with the count error and the pipeline run builds no index (the
filesystem under the base directory is unchanged). -/
theorem embed_response_validation
    (service : Nat → Except Unit (List JItem)) (b : Nat) (g : String → Vec)
    (fs : List String) (store_name : String) (suffixes : List String)
    (writeOk : String → Bool)
    (filesDocs gitDocs confluenceDocs : List Document) (session_id : Option String)
    (documents : List Document) (k : Nat) (items : List JItem) (vs : List Vec)
    (bj : List String)
    (hb : 0 < b)
    (hcollect : collect_documents filesDocs gitDocs confluenceDocs session_id
        = .ok documents)
    (hbj : (batches b (documents.map (fun d => d.text)))[k]? = some bj)
    (hbefore : ∀ j bj2, j < k →
        (batches b (documents.map (fun d => d.text)))[j]? = some bj2 →
        service j = .ok (bj2.map (fun t => JItem.list (g t))))
    (hitems : service k = .ok items)
    (hparse : parseItems items = .ok vs)
    (hcount : vs.length ≠ bj.length) :
    (∀ v rest, parseItems (JItem.list v :: rest)
        = (parseItems rest).map (fun ws => v :: ws)) ∧
    (∀ fields v rest, fieldGet fields "embedding" = some v →
        parseItems (JItem.dict fields :: rest)
          = (parseItems rest).map (fun ws => v :: ws)) ∧
    (∀ fields rest, fieldGet fields "embedding" = none →
        parseItems (JItem.dict fields :: rest) = .error .format) ∧
    (∀ rest, parseItems (JItem.other :: rest) = .error .format) ∧
    (embed_documents service b (documents.map (fun d => d.text))).result
      = .error .count ∧
    (run_pipeline service b fs store_name suffixes writeOk filesDocs gitDocs
        confluenceDocs session_id).result = .error (.embedErr .count) ∧
    (run_pipeline service b fs store_name suffixes writeOk filesDocs gitDocs
        confluenceDocs session_id).fs = fs := by
  have hne : documents.map (fun d => d.text) ≠ [] := by
    intro habs
    rw [habs, batches_nil] at hbj
    simp at hbj
  obtain ⟨hk, hget⟩ :=
    List.getElem?_eq_some_iff.mp hbj
  have hdecomp : batches b (documents.map (fun d => d.text)) =
      (batches b (documents.map (fun d => d.text))).take k ++
        bj :: (batches b (documents.map (fun d => d.text))).drop (k + 1) := by
    conv_lhs => rw [← List.take_append_drop k
      (batches b (documents.map (fun d => d.text)))]
    rw [List.drop_eq_getElem_cons hk, hget]
  have hpre : ∀ j bj2,
      ((batches b (documents.map (fun d => d.text))).take k)[j]? = some bj2 →
      service (0 + j) = .ok (bj2.map (fun t => JItem.list (g t))) := by
    intro j bj2 hj
    have hjlt : j < k := by
      obtain ⟨hjl, -⟩ := List.getElem?_eq_some_iff.mp hj
      rw [List.length_take] at hjl
      omega
    rw [List.getElem?_take_of_lt hjlt] at hj
    simpa using hbefore j bj2 hjlt hj
  have hAG := embedLoop_append_good g
    ((batches b (documents.map (fun d => d.text))).take k)
    (bj :: (batches b (documents.map (fun d => d.text))).drop (k + 1))
    service 0 hpre
  have hlen_take :
      ((batches b (documents.map (fun d => d.text))).take k).length = k := by
    rw [List.length_take]; omega
  rw [hlen_take, Nat.zero_add] at hAG
  have hE : embedLoop service k
      (bj :: (batches b (documents.map (fun d => d.text))).drop (k + 1))
      = ⟨.error .count, [bj]⟩ := by
    rw [show embedLoop service k
        (bj :: (batches b (documents.map (fun d => d.text))).drop (k + 1)) =
        match service k with
        | .error _ => ⟨.error .service, [bj]⟩
        | .ok its =>
          match parseItems its with
          | .error e => ⟨.error e, [bj]⟩
          | .ok ws =>
            if ws.length ≠ bj.length then ⟨.error .count, [bj]⟩
            else
              ⟨(embedLoop service (k + 1)
                  ((batches b (documents.map (fun d => d.text))).drop (k + 1))).result.map
                  (fun tail => ws ++ tail),
                bj :: (embedLoop service (k + 1)
                  ((batches b (documents.map (fun d => d.text))).drop (k + 1))).callsSent⟩
      from rfl]
    rw [hitems]
    simp only [hparse]
    rw [if_pos hcount]
  have hembed : (embed_documents service b (documents.map (fun d => d.text))).result
      = .error .count := by
    simp only [embed_documents, if_neg hne]
    rw [hdecomp, hAG, hE]
    simp [Except.map]
  refine ⟨fun v rest => rfl, ?_, ?_, fun rest => rfl, hembed, ?_, ?_⟩
  · intro fields v rest h; simp [parseItems, h]
  · intro fields rest h; simp [parseItems, h]
  · simp only [run_pipeline, hcollect, hembed]
  · simp only [run_pipeline, hcollect, hembed]

/-- Witness for C5: scenario D of the specification — one batch of two texts
whose response carries a single vector; the run fails with the count error
and the base directory stays empty. -/
theorem embed_response_validation_witness :
    (run_pipeline (fun _ => .ok [JItem.list [0]]) 2 [] "s" [] (fun _ => true)
        [⟨"a", []⟩, ⟨"b", []⟩] [] [] none).result = .error (.embedErr .count) ∧
    (run_pipeline (fun _ => .ok [JItem.list [0]]) 2 [] "s" [] (fun _ => true)
        [⟨"a", []⟩, ⟨"b", []⟩] [] [] none).fs = ([] : List String) := by
  have H := embed_response_validation (fun _ => .ok [JItem.list [0]]) 2
    (fun _ => [0]) [] "s" [] (fun _ => true)
    [⟨"a", []⟩, ⟨"b", []⟩] [] [] none
    [⟨"a", []⟩, ⟨"b", []⟩] 0 [JItem.list [0]] [[0]] ["a", "b"]
    (by decide) rfl rfl
    (by intro j bj2 hj; omega)
    rfl rfl (by decide)
  exact ⟨H.2.2.2.2.2.1, H.2.2.2.2.2.2⟩

/-! ### Claim C8: empty collection aborts before any service call -/

/-- C8: when the configured sources together yield zero documents, the
pipeline fails with the no-documents error, makes no embedding-service call,
and leaves the base directory unchanged. -/
theorem run_pipeline_no_documents
    (service : Nat → Except Unit (List JItem)) (b : Nat) (fs : List String)
    (store_name : String) (suffixes : List String) (writeOk : String → Bool)
    (filesDocs gitDocs confluenceDocs : List Document) (session_id : Option String)
    (hempty : filesDocs ++ gitDocs ++ confluenceDocs = []) :
    run_pipeline service b fs store_name suffixes writeOk filesDocs gitDocs
      confluenceDocs session_id = ⟨.error .noDocuments, fs, []⟩ := by
  have hc : collect_documents filesDocs gitDocs confluenceDocs session_id
      = .error .noDocuments := by
    simp [collect_documents, hempty]
  simp [run_pipeline, hc]

/-- Witness for C8: three empty sources. -/
theorem run_pipeline_no_documents_witness :
    run_pipeline (fun _ => .ok []) 32 [] "s" [] (fun _ => true) [] [] [] none
      = ⟨.error .noDocuments, [], []⟩ :=
  run_pipeline_no_documents (fun _ => .ok []) 32 [] "s" [] (fun _ => true)
    [] [] [] none rfl

/-! ### Claim C9: session identifier stamping -/

/-- C9: with a configured (non-empty) session identifier, every collected
document's metadata carries it under the fixed key `"session_id"`,
regardless of which source produced the document; the document's text and
every other metadata field are unchanged, and the documents stay in source
order. -/
theorem collect_documents_session_stamp
    (filesDocs gitDocs confluenceDocs : List Document) (sid : String)
    (docs2 : List Document)
    (hsid : sid ≠ "")
    (hok : collect_documents filesDocs gitDocs confluenceDocs (some sid)
        = .ok docs2) :
    docs2 = (filesDocs ++ gitDocs ++ confluenceDocs).map (stampSession sid) ∧
    docs2.length = (filesDocs ++ gitDocs ++ confluenceDocs).length ∧
    ∀ (i : Nat) (d d2 : Document),
      (filesDocs ++ gitDocs ++ confluenceDocs)[i]? = some d →
      docs2[i]? = some d2 →
      dictGet d2.metadata "session_id" = some (.str sid) ∧
      d2.text = d.text ∧
      ∀ k, k ≠ "session_id" → dictGet d2.metadata k = dictGet d.metadata k := by
  have hmap : docs2
      = (filesDocs ++ gitDocs ++ confluenceDocs).map (stampSession sid) := by
    simp only [collect_documents] at hok
    by_cases hne : filesDocs ++ gitDocs ++ confluenceDocs = []
    · rw [if_pos hne] at hok
      exact Except.noConfusion hok
    · rw [if_neg hne, if_neg hsid] at hok
      exact (Except.ok.inj hok).symm
  refine ⟨hmap, by rw [hmap]; simp, ?_⟩
  intro i d d2 hd hd2
  rw [hmap, List.getElem?_map, hd] at hd2
  obtain rfl : stampSession sid d = d2 := by simpa using hd2
  simp only [stampSession]
  exact ⟨dictGet_dictSet_self _ _ _, by trivial,
    fun k hk => dictGet_dictSet_ne _ _ _ _ hk⟩

/-- Witness for C9: one filesystem document with an unrelated metadata
field; the stamped document keeps it and gains the session key. -/
theorem collect_documents_session_stamp_witness :
    dictGet (Document.mk "a" [("x", MVal.str "1"), ("session_id", MVal.str "S")]).metadata
        "session_id" = some (.str "S") ∧
    (Document.mk "a" [("x", MVal.str "1"), ("session_id", MVal.str "S")]).text = "a" ∧
    ∀ k, k ≠ "session_id" →
      dictGet (Document.mk "a" [("x", MVal.str "1"), ("session_id", MVal.str "S")]).metadata k
        = dictGet (Document.mk "a" [("x", MVal.str "1")]).metadata k :=
  (collect_documents_session_stamp [⟨"a", [("x", MVal.str "1")]⟩] [] [] "S"
      [⟨"a", [("x", MVal.str "1"), ("session_id", MVal.str "S")]⟩]
      (by decide) rfl).2.2 0
    ⟨"a", [("x", MVal.str "1")]⟩
    ⟨"a", [("x", MVal.str "1"), ("session_id", MVal.str "S")]⟩ rfl rfl

/-! ### Claim C7: persistence on failed runs (corrected) -/

theorem collect_documents_error_inv {f g c : List Document} {s : Option String}
    {e : PipelineError}
    (h : collect_documents f g c s = .error e) : e = .noDocuments := by
  rcases s with _ | sid <;> simp only [collect_documents] at h
  · by_cases hne : f ++ g ++ c = []
    · rw [if_pos hne] at h
      exact (Except.error.inj h).symm
    · rw [if_neg hne] at h
      exact Except.noConfusion h
  · by_cases hne : f ++ g ++ c = []
    · rw [if_pos hne] at h
      exact (Except.error.inj h).symm
    · rw [if_neg hne] at h
      by_cases hs : sid = ""
      · rw [if_pos hs] at h
        exact Except.noConfusion h
      · rw [if_neg hs] at h
        exact Except.noConfusion h

/-- C7 counterexample: a run whose `metadata.json` write fails leaves a
store directory containing only the index file — the run failed, yet a
directory created by the run remains and is not complete, contradicting the
claim that a failed run performs no partial persistence. -/
theorem run_pipeline_partial_persistence_cex :
    ((run_pipeline (fun _ => .ok [JItem.list [0]]) 1 [] "s" ["A"]
        (fun p => p != "s/metadata.json") [⟨"t", []⟩] [] [] none).result
      = .error (.buildErr .persistence)) ∧
    "s" ∈ (run_pipeline (fun _ => .ok [JItem.list [0]]) 1 [] "s" ["A"]
        (fun p => p != "s/metadata.json") [⟨"t", []⟩] [] [] none).fs ∧
    "s/index.faiss" ∈ (run_pipeline (fun _ => .ok [JItem.list [0]]) 1 [] "s" ["A"]
        (fun p => p != "s/metadata.json") [⟨"t", []⟩] [] [] none).fs ∧
    "s/metadata.json" ∉ (run_pipeline (fun _ => .ok [JItem.list [0]]) 1 [] "s" ["A"]
        (fun p => p != "s/metadata.json") [⟨"t", []⟩] [] [] none).fs := by
  refine ⟨rfl, ?_, ?_, ?_⟩ <;> decide

/-- C7 (amended): a run that fails before the persistence stage leaves the
base directory unchanged; a failure while persisting can leave a partially
written store directory under a name that did not previously exist — the
directory alone, or the directory with only the index file — with no
automatic cleanup. -/
theorem run_pipeline_failure_persistence
    (service : Nat → Except Unit (List JItem)) (b : Nat) (fs : List String)
    (store_name : String) (suffixes : List String) (writeOk : String → Bool)
    (filesDocs gitDocs confluenceDocs : List Document) (session_id : Option String)
    (e : PipelineError)
    (hfail : (run_pipeline service b fs store_name suffixes writeOk filesDocs
        gitDocs confluenceDocs session_id).result = .error e) :
    (e ≠ .buildErr .persistence →
      (run_pipeline service b fs store_name suffixes writeOk filesDocs gitDocs
        confluenceDocs session_id).fs = fs) ∧
    (e = .buildErr .persistence → ∃ fn, fn ∉ fs ∧
      ((run_pipeline service b fs store_name suffixes writeOk filesDocs gitDocs
          confluenceDocs session_id).fs = fs ++ [fn] ∨
       (run_pipeline service b fs store_name suffixes writeOk filesDocs gitDocs
          confluenceDocs session_id).fs = fs ++ [fn, fn ++ "/index.faiss"])) := by
  cases hC : collect_documents filesDocs gitDocs confluenceDocs session_id with
  | error e2 =>
    have he2 : e2 = .noDocuments := collect_documents_error_inv hC
    have hrun : run_pipeline service b fs store_name suffixes writeOk filesDocs
        gitDocs confluenceDocs session_id = ⟨.error e2, fs, []⟩ := by
      simp [run_pipeline, hC]
    rw [hrun] at hfail
    obtain rfl : e2 = e := by simpa using hfail
    subst he2
    exact ⟨fun _ => by rw [hrun], fun hpe => by cases hpe⟩
  | ok documents =>
    cases hE : (embed_documents service b (documents.map (fun d => d.text))).result with
    | error ee =>
      have hrun : run_pipeline service b fs store_name suffixes writeOk filesDocs
          gitDocs confluenceDocs session_id
          = ⟨.error (.embedErr ee), fs,
            (embed_documents service b (documents.map (fun d => d.text))).callsSent⟩ := by
        simp [run_pipeline, hC, hE]
      rw [hrun] at hfail
      obtain rfl : PipelineError.embedErr ee = e := by simpa using hfail
      exact ⟨fun _ => by rw [hrun], fun hpe => by cases hpe⟩
    | ok embeddings =>
      cases hB : (build fs store_name suffixes writeOk documents embeddings).result with
      | ok p =>
        have hrun : run_pipeline service b fs store_name suffixes writeOk filesDocs
            gitDocs confluenceDocs session_id
            = ⟨.ok p.1,
              (build fs store_name suffixes writeOk documents embeddings).fs,
              (embed_documents service b (documents.map (fun d => d.text))).callsSent⟩ := by
          simp [run_pipeline, hC, hE, hB]
        rw [hrun] at hfail
        simp at hfail
      | error be =>
        have hrun : run_pipeline service b fs store_name suffixes writeOk filesDocs
            gitDocs confluenceDocs session_id
            = ⟨.error (.buildErr be),
              (build fs store_name suffixes writeOk documents embeddings).fs,
              (embed_documents service b (documents.map (fun d => d.text))).callsSent⟩ := by
          simp [run_pipeline, hC, hE, hB]
        rw [hrun] at hfail
        obtain rfl : PipelineError.buildErr be = e := by simpa using hfail
        obtain ⟨hB1, hB2⟩ := build_error_inv hB
        constructor
        · intro hne
          rw [hrun]
          apply hB1
          intro habs
          exact hne (by rw [habs])
        · intro hpe
          have hbep : be = .persistence := by
            injection hpe
          obtain ⟨fn, hu, hor⟩ := hB2 hbep
          exact ⟨fn, (ensure_unique_path_spec hu).1, by rw [hrun]; exact hor⟩

/-- Witness for the amended C7 at the counterexample input: the persistence
failure leaves exactly the fresh directory with only the index file. -/
theorem run_pipeline_failure_persistence_witness :
    ∃ fn, fn ∉ ([] : List String) ∧
      ((run_pipeline (fun _ => .ok [JItem.list [0]]) 1 [] "s" ["A"]
          (fun p => p != "s/metadata.json") [⟨"t", []⟩] [] [] none).fs
        = [] ++ [fn] ∨
       (run_pipeline (fun _ => .ok [JItem.list [0]]) 1 [] "s" ["A"]
          (fun p => p != "s/metadata.json") [⟨"t", []⟩] [] [] none).fs
        = [] ++ [fn, fn ++ "/index.faiss"]) :=
  (run_pipeline_failure_persistence (fun _ => .ok [JItem.list [0]]) 1 [] "s" ["A"]
      (fun p => p != "s/metadata.json") [⟨"t", []⟩] [] [] none
      (.buildErr .persistence) rfl).2 rfl

end EmbeddingApp
